import Mathlib

/-!
# Verification of `single_file_bookmark_archiver`

Shallow embedding of `src/single_file_bookmark_archiver/bookmark_archiver.py`
and proofs about the claims of the specification.

Modelling conventions:
* A decoded bookmark JSON node becomes the inductive `Node`; an absent dict key
  becomes `none` in an `Option` field.
* Python `set` of strings becomes a `List String` used only through membership.
* Python builtins on strings are modelled by the correspondingly named Lean
  functions (`str.strip` by `String.trim`, `str.isalnum` by `Char.isAlphanum`
  restricted to the ASCII inputs the claims exercise).
* Filesystem and external-process effects become explicit inputs: file contents
  are `Option String` (absent file is `none`), directory listings are
  `Option (List FileEntry)`, the external archiver's per-invocation outcome is
  a supplied `Bool`.
-/

namespace BookmarkArchiver

/-- A decoded bookmark-tree JSON node: dict with optional keys
`type`, `title`, `uri`, `children` (see `read_bookmark_backup` / section 6 of
the spec).  An absent key is `none`. -/
inductive Node where
  | mk (type : Option String) (title : Option String)
       (uri : Option String) (children : Option (List Node)) : Node
deriving Repr

def Node.type : Node → Option String
  | .mk t _ _ _ => t

def Node.title : Node → Option String
  | .mk _ ti _ _ => ti

def Node.uri : Node → Option String
  | .mk _ _ u _ => u

def Node.children : Node → Option (List Node)
  | .mk _ _ _ ch => ch

/-- The Firefox container-type constant used in `find_bookmark_folder`. -/
def containerType : String := "text/x-moz-place-container"

/-- The Firefox URL-entry type constant used in `extract_urls`. -/
def placeType : String := "text/x-moz-place"

mutual

/-- `BookmarkArchiver.find_bookmark_folder` (bookmark_archiver.py:131-147):
return `node` itself when its `type` is the container constant and its `title`
equals `folder_name`, otherwise recurse into `children` (when the key is
present) in order, returning the first hit. -/
def find_bookmark_folder (folderName : String) : Node → Option Node
  | .mk t ti u ch =>
    if t = some containerType ∧ ti = some folderName then
      some (.mk t ti u ch)
    else
      match ch with
      | none => none
      | some cs => findInChildren folderName cs

/-- The `for child in node['children']` loop of `find_bookmark_folder`:
first non-`None` recursive result wins. -/
def findInChildren (folderName : String) : List Node → Option Node
  | [] => none
  | c :: cs =>
    match find_bookmark_folder folderName c with
    | some found => some found
    | none => findInChildren folderName cs

end

/-- The dict `{'url': ..., 'title': ...}` built by `extract_urls`. -/
structure URLRecord where
  url : String
  title : String
deriving Repr, DecidableEq

/-- The body of the `for item in folder['children']` loop of `extract_urls`:
the record appended when `item.get('type') == 'text/x-moz-place' and 'uri' in
item`, with `item.get('title', 'Untitled')` as the title. -/
def extractChild (item : Node) : Option URLRecord :=
  match item.uri with
  | none => none
  | some u =>
    if item.type = some placeType then
      some { url := u, title := item.title.getD "Untitled" }
    else
      none

/-- `BookmarkArchiver.extract_urls` (bookmark_archiver.py:149-162): empty list
when the folder is falsy/absent or lacks a `children` key; otherwise one record
per direct child with `type == 'text/x-moz-place'` and a `uri` key, in child
order, `title` defaulting to `'Untitled'`.  Only direct children are visited. -/
def extract_urls : Option Node → List URLRecord
  | none => []
  | some f =>
    match f.children with
    | none => []
    | some cs => cs.filterMap extractChild

/-! ## ProcessedURLLedger -/

/-- Split a character sequence at every newline.  The result always has one
more piece than there are newlines; a trailing newline contributes a final
empty piece. -/
def splitNl : List Char → List (List Char)
  | [] => [[]]
  | c :: cs =>
    if c = '\n' then [] :: splitNl cs
    else
      match splitNl cs with
      | [] => [[c]]
      | l :: ls => (c :: l) :: ls

/-- Python's text-mode line iteration over a file's content.  Python yields
each line with its trailing `'\n'` still attached; since
`load_processed_urls` strips every line anyway, the pieces between newlines
are observationally the same, except for an extra final `""` piece when the
content ends in a newline — blank, hence filtered out either way. -/
def pyLines (content : String) : List String :=
  (splitNl content.data).map fun cs => ⟨cs⟩

/-- Python's `str.strip()`: remove leading and trailing whitespace.  (Python
strips Unicode whitespace; `Char.isWhitespace` covers space, tab, carriage
return and newline, which agrees on the ASCII log contents modelled here.) -/
def pyStrip (cs : List Char) : List Char :=
  ((cs.dropWhile Char.isWhitespace).reverse.dropWhile Char.isWhitespace).reverse

/-- `str.strip()` lifted to `String`. -/
def pyStripStr (s : String) : String :=
  ⟨pyStrip s.data⟩

/-- `BookmarkArchiver.load_processed_urls` (bookmark_archiver.py:164-171):
`{line.strip() for line in f if line.strip()}` when the log file exists;
the initial empty set when it does not.  The input is the log file's content,
`none` when the file is absent; the result is the in-memory set, as a list
used through membership. -/
def load_processed_urls : Option String → List String
  | none => []
  | some content => ((pyLines content).map pyStripStr).filter (fun l => l ≠ "")

/-- Ledger state: the in-memory `processed_urls` set (a list used through
membership) and the on-disk log, one appended line per `mark_as_processed`. -/
structure LedgerState where
  processed : List String
  log : List String
deriving Repr, DecidableEq

/-- `BookmarkArchiver.mark_as_processed` (bookmark_archiver.py:173-177):
`self.processed_urls.add(url)` and append `url + '\n'` to the log file. -/
def mark_as_processed (url : String) (s : LedgerState) : LedgerState :=
  { processed := s.processed ++ [url], log := s.log ++ [url] }

/-! ## The archive loop -/

/-- Observable events of one run's archive loop: the external archiver
invocation (`subprocess.run` in `archive_url`) with its outcome, and the
`mark_as_processed` call. -/
inductive Event where
  | invoke (url : String) (ok : Bool)
  | mark (url : String)
deriving Repr, DecidableEq

/-- `BookmarkArchiver.archive_url` (bookmark_archiver.py:179-210) with the
external `subprocess.run` outcome supplied as `ok`: on success,
`mark_as_processed url` runs and `True` is returned; on `CalledProcessError`
the ledger is untouched and `False` is returned.  Also returns the event
trace of the call. -/
def archive_url (url : String) (ok : Bool) (s : LedgerState) :
    LedgerState × Bool × List Event :=
  if ok then (mark_as_processed url s, true, [.invoke url true, .mark url])
  else (s, false, [.invoke url false])

/-- The `for item in new_urls` loop of `BookmarkArchiver.run`
(bookmark_archiver.py:281-284): each record is paired with its archiver
outcome; `success_count` increments exactly when `archive_url` returned
`True`; a failure never stops the iteration. -/
def archiveLoop : List (URLRecord × Bool) → LedgerState →
    LedgerState × Nat × List Event
  | [], s => (s, 0, [])
  | (r, ok) :: rest, s =>
    let step := archive_url r.url ok s
    let tail := archiveLoop rest step.1
    (tail.1, (if step.2.1 then 1 else 0) + tail.2.1, step.2.2 ++ tail.2.2)

/-- The dedup filter of `BookmarkArchiver.run` (bookmark_archiver.py:269-272):
`[item for item in urls if item['url'] not in self.processed_urls]`. -/
def newUrls (urls : List URLRecord) (processed : List String) : List URLRecord :=
  urls.filter fun item => ¬ item.url ∈ processed

/-! ## BackupSelector -/

/-- One entry of the backup directory listing: name, `st_mtime`, and whether
`is_file()` holds. -/
structure FileEntry where
  name : String
  mtime : Int
  isFile : Bool
deriving Repr, DecidableEq

/-- Python's `str.endswith`, modelled at the character level. -/
def pyEndsWith (s suffix : String) : Bool :=
  suffix.data.isSuffixOf s.data

/-- Whether `get_latest_bookmark_backup` keeps a directory entry:
`f.is_file() and (f.name.endswith('.jsonlz4') or f.name.endswith('.json'))`. -/
def isBackupFile (f : FileEntry) : Bool :=
  f.isFile && (pyEndsWith f.name ".jsonlz4" || pyEndsWith f.name ".json")

/-- Insert into a list already sorted by `mtime` descending, after every entry
with an `mtime` at least as large.  This is the stable-sort insert: the
inserted element came earlier in the original listing than everything already
in the list, so on an equal key it goes first. -/
def insertByMtimeDesc (x : FileEntry) : List FileEntry → List FileEntry
  | [] => [x]
  | y :: ys => if x.mtime ≥ y.mtime then x :: y :: ys else y :: insertByMtimeDesc x ys

/-- `backups.sort(key=lambda f: f.stat().st_mtime, reverse=True)` —
Python's stable sort by modification time, most recent first, modelled as a
stable insertion sort. -/
def sortByMtimeDesc : List FileEntry → List FileEntry
  | [] => []
  | x :: xs => insertByMtimeDesc x (sortByMtimeDesc xs)

/-- The error kinds raised by the script, per spec section 7. -/
inductive PyErr where
  | notFound (msg : String)
  | formatError (msg : String)
deriving Repr, DecidableEq

/-- `BookmarkArchiver.get_latest_bookmark_backup` (bookmark_archiver.py:82-99):
the input is the listing of `profile_dir / "bookmarkbackups"`, `none` when the
directory does not exist.  Filter to backup files, fail when none remain, sort
by modification time most recent first, return the head. -/
def get_latest_bookmark_backup (backupDir : Option (List FileEntry)) :
    Except PyErr FileEntry :=
  match backupDir with
  | none => .error (.notFound "Bookmark backup directory not found")
  | some entries =>
    let backups := entries.filter isBackupFile
    if backups.isEmpty then
      .error (.notFound "No bookmark backups found")
    else
      match sortByMtimeDesc backups with
      | [] => .error (.notFound "No bookmark backups found")
      | b :: _ => .ok b

/-! ## BackupContainerDecoder -/

/-- The 7 bytes of `b'mozLz40'`, the argument of the `startswith` check in
`read_bookmark_backup` (bookmark_archiver.py:116). -/
def mozLz4Magic7 : List Nat := [109, 111, 122, 76, 122, 52, 48]

/-- The full 8-byte magic `b'mozLz40\x00'` documented at
bookmark_archiver.py:109 (`"mozLz40\0"`). -/
def mozLz4Magic8 : List Nat := [109, 111, 122, 76, 122, 52, 48, 0]

/-- The `.jsonlz4` branch of `BookmarkArchiver.read_bookmark_backup`
(bookmark_archiver.py:110-129): `magic = data[:8]`, reject unless
`magic.startswith(b'mozLz40')`, then `lz4.block.decompress(data[8:])` and
`json.loads` — the two external library calls are supplied as oracles, any of
whose failures is wrapped into the one `formatError`. -/
def read_bookmark_backup_lz4
    (decompress : List Nat → Except String (List Nat))
    (parseJson : List Nat → Except String Node)
    (data : List Nat) : Except PyErr Node :=
  let magic := data.take 8
  if !(mozLz4Magic7.isPrefixOf magic) then
    .error (.formatError "Failed to read bookmark backup: Invalid jsonlz4 file format")
  else
    match decompress (data.drop 8) with
    | .error e => .error (.formatError ("Failed to read bookmark backup: " ++ e))
    | .ok decompressed =>
      match parseJson decompressed with
      | .error e => .error (.formatError ("Failed to read bookmark backup: " ++ e))
      | .ok tree => .ok tree

/-! ## Filename sanitization (`archive_url`, bookmark_archiver.py:184-190) -/

/-- One character of the sanitizing generator expression:
`c if c.isalnum() or c in (' ', '-', '_') else '-'`. -/
def sanitizeChar (c : Char) : Char :=
  if c.isAlphanum || c = ' ' || c = '-' || c = '_' then c else '-'

/-- `safe_title` of `archive_url`:
`"".join(c if c.isalnum() or c in (' ','-','_') else '-' for c in (title or 'untitled'))[:100]`.
An empty title is falsy in Python, so `title or 'untitled'` substitutes the
fallback before sanitization. -/
def safe_title (title : String) : String :=
  ⟨((if title = "" then "untitled" else title).data.map sanitizeChar).take 100⟩

/-- `filename = f"{timestamp}_{safe_title}.html"` (bookmark_archiver.py:190). -/
def archiveFilename (timestamp title : String) : String :=
  timestamp ++ "_" ++ safe_title title ++ ".html"

/-! ## `run` and `main` -/

/-- How `BookmarkArchiver.run` (bookmark_archiver.py:212-286) terminates.
`errProfile`, `errBackup` and `errDecode` are the three `except` branches that
print the error and `return`; `folderNotFound` and `noNewUrls` are the two
early `return`s; `completed` carries the final
`Successfully archived {success_count}/{len(new_urls)}` counts. -/
inductive RunOutcome where
  | errProfile
  | errBackup
  | errDecode
  | folderNotFound
  | noNewUrls
  | completed (succeeded : Nat) (attempted : Nat)
deriving Repr, DecidableEq

/-- The environment one `run` call observes.  The three pipeline stages
(`find_firefox_profile`, `get_latest_bookmark_backup`,
`read_bookmark_backup`) appear through their results, since `run` only
branches on whether each raised; `logContent` is the processed-URLs log file
(`none` when absent); `outcomes i` is the external archiver's verdict for the
`i`-th invocation of the loop. -/
structure Env where
  profileRes : Except PyErr Unit
  backupRes : Except PyErr FileEntry
  bookmarksRes : Except PyErr Node
  folderName : String
  logContent : Option String
  outcomes : Nat → Bool

/-- Pair each record of the loop with the archiver outcome of its invocation,
by position. -/
def pairWithOutcomes (records : List URLRecord) (outcomes : Nat → Bool) :
    List (URLRecord × Bool) :=
  records.enum.map fun p => (p.2, outcomes p.1)

/-- `BookmarkArchiver.run` (bookmark_archiver.py:212-286): load the ledger,
then three try/except stages each of which prints and returns on error, then
folder lookup, extraction, the dedup filter, the `no new URLs` early return,
and the archive loop with its final summary.  Returns the outcome, the final
ledger state (`log` holds the lines appended during this run), and the event
trace of the loop. -/
def run (env : Env) : RunOutcome × LedgerState × List Event :=
  let s0 : LedgerState := { processed := load_processed_urls env.logContent, log := [] }
  match env.profileRes with
  | .error _ => (.errProfile, s0, [])
  | .ok _ =>
    match env.backupRes with
    | .error _ => (.errBackup, s0, [])
    | .ok _ =>
      match env.bookmarksRes with
      | .error _ => (.errDecode, s0, [])
      | .ok bookmarks =>
        match find_bookmark_folder env.folderName bookmarks with
        | none => (.folderNotFound, s0, [])
        | some folder =>
          let urls := extract_urls (some folder)
          let new := newUrls urls s0.processed
          if new.isEmpty then (.noNewUrls, s0, [])
          else
            let res := archiveLoop (pairWithOutcomes new env.outcomes) s0
            (.completed res.2.1 new.length, res.1, res.2.2)

/-- `main` (bookmark_archiver.py:289-297): a missing config file exits with
status 1 (the code's `sys.exit(1)`; the `logger`/`sPath` typos on that path
raise `NameError`, also a non-zero exit).  Otherwise `run()` is called; `run`
catches every pipeline error internally and returns normally, so the process
exits 0. -/
def mainExitCode (configExists : Bool) (env : Env) : Nat :=
  if configExists then
    let _ := run env
    0
  else 1

/-- The bytes `mark_as_processed` appends to the log file over a run: one
`url + '\n'` write per recorded URL, in order. -/
def appendedLog (urls : List String) : List Char :=
  (urls.map fun u => u.data ++ ['\n']).flatten

/-- The log file's content after a run: the previous content (Python's append
mode creates the file, so an absent file behaves as empty) followed by the
lines written by `mark_as_processed` during the run.  When nothing was
appended to an absent file the result is `some ""` rather than `none`; both
load to the empty set. -/
def fileAfterRun (env : Env) : Option String :=
  some ⟨(env.logContent.getD "").data ++ appendedLog (run env).2.1.log⟩

/-- The environment of a second `run` against the same unchanged tree and
stage results: only the log file has evolved, by the first run's appends. -/
def secondRunEnv (env : Env) : Env :=
  { env with logContent := fileAfterRun env }

/-! ## Spec-side definitions

These follow the specification's words, for comparison against the functions
embedded from the code above. -/

/-- Spec 4.4: a node matches when "its type marks it as a container AND its
title equals `name` exactly". -/
def isFolderMatch (folderName : String) (n : Node) : Bool :=
  n.type = some containerType ∧ n.title = some folderName

mutual

/-- Document order per spec 4.4 / claim C6: preorder depth-first, a node
before its children, children in sequence order. -/
def preorder : Node → List Node
  | .mk t ti u none => [.mk t ti u none]
  | .mk t ti u (some cs) => .mk t ti u (some cs) :: preorderList cs

/-- Concatenated preorders of a sequence of sibling subtrees. -/
def preorderList : List Node → List Node
  | [] => []
  | c :: cs => preorder c ++ preorderList cs

end

/-- Spec-side direct-child test (claim C7): "type marks it as a URL entry and
which carries a URI". -/
def isUrlChild (item : Node) : Bool :=
  item.type = some placeType ∧ item.uri ≠ none

/-- Spec-side record builder (claim C7): the record of a qualifying child,
title defaulting to the fixed placeholder. -/
def recordOfChild (item : Node) : URLRecord :=
  { url := item.uri.getD "", title := item.title.getD "Untitled" }

/-! ## Concrete fixtures used by counterexamples and witnesses -/

/-- A decompression oracle that succeeds, returning the payload unchanged. -/
def idDecompress : List Nat → Except String (List Nat) := fun bs => .ok bs

/-- A parse oracle that succeeds with a fixed tree. -/
def constParse (n : Node) : List Nat → Except String Node := fun _ => .ok n

/-- The all-`none` JSON node `{}`. -/
def emptyNode : Node := .mk none none none none

/-- A byte string whose first 7 bytes are `b'mozLz40'` but whose 8th byte is
`88` (`'X'`) instead of the `0` byte of the documented 8-byte magic. -/
def badEighthByteData : List Nat := [109, 111, 122, 76, 122, 52, 48, 88, 1, 2, 3]

/-- The specification's sanitization example title. -/
def exampleTitle : String := "Q&A: 100% Done!"

/-- An environment whose profile lookup raised (`~/.mozilla/firefox` absent),
with every later stage well-behaved. -/
def envProfileMissing : Env :=
  { profileRes := .error (.notFound "Firefox directory not found"),
    backupRes := .ok (FileEntry.mk "bookmarks-1.jsonlz4" 5 true),
    bookmarksRes := .ok emptyNode,
    folderName := "Archive",
    logContent := none,
    outcomes := fun _ => true }

/-- A healthy environment whose bookmark tree holds one URL carrying leading
and trailing spaces, over an absent ledger log, with an archiver that always
succeeds. -/
def envSpaceyUrl : Env :=
  { profileRes := .ok (),
    backupRes := .ok (FileEntry.mk "bookmarks-1.jsonlz4" 5 true),
    bookmarksRes := .ok (.mk (some containerType) (some "Archive") none (some
      [ .mk (some placeType) (some "T") (some " https://a.example ") none ])),
    folderName := "Archive",
    logContent := none,
    outcomes := fun _ => true }

/-- Like `envSpaceyUrl`, but the one URL is an ordinary one: non-empty,
newline-free, invariant under stripping. -/
def envCleanUrl : Env :=
  { profileRes := .ok (),
    backupRes := .ok (FileEntry.mk "bookmarks-1.jsonlz4" 5 true),
    bookmarksRes := .ok (.mk (some containerType) (some "Archive") none (some
      [ .mk (some placeType) (some "T") (some "https://a.example") none ])),
    folderName := "Archive",
    logContent := none,
    outcomes := fun _ => true }

/-! # Theorems -/

/-- **C3, counterexample.**  The claim says loading performs "no trimming
beyond stripping a single trailing newline (so a URL stored with leading or
trailing spaces is loaded unchanged)".  The code runs `line.strip()`:
loading the log `" https://a.example \n"` yields the trimmed
`"https://a.example"`, and the stored `" https://a.example "` is not in the
loaded set. -/
theorem C3_counterexample :
    load_processed_urls (some " https://a.example \n") = ["https://a.example"] ∧
    " https://a.example " ∉ load_processed_urls (some " https://a.example \n") := by
  constructor
  · rfl
  · decide

/-- **C3, amended.**  Loading the ledger from a log file's content builds the
set from exactly the lines that are non-blank after whitespace-stripping, with
each line's leading and trailing whitespace removed (Python `str.strip`), so a
URL stored with surrounding spaces is loaded in trimmed form; blank lines
never contribute, and an absent log file yields the empty set rather than an
error. -/
theorem C3_theorem (c : String) (u : String) :
    load_processed_urls none = [] ∧
    "" ∉ load_processed_urls (some c) ∧
    (u ∈ load_processed_urls (some c) ↔
      ∃ line ∈ pyLines c, pyStripStr line = u ∧ u ≠ "") := by
  refine ⟨rfl, ?_, ?_⟩
  · simp [load_processed_urls, List.mem_filter]
  · simp only [load_processed_urls, List.mem_filter, List.mem_map, decide_not,
      Bool.not_eq_eq_eq_not, Bool.not_true, decide_eq_false_iff_not]
    constructor
    · rintro ⟨⟨line, hline, rfl⟩, hne⟩
      exact ⟨line, hline, rfl, hne⟩
    · rintro ⟨line, hline, rfl, hne⟩
      exact ⟨⟨line, hline, rfl⟩, hne⟩

/-- **C9, counterexample.**  The claim's transform ("replace each character …
then truncate") sends the empty title to the empty string, but the code's
`(title or 'untitled')` substitutes the fallback first: `safe_title ""` is
`"untitled"`, not `""`. -/
theorem C9_counterexample :
    safe_title "" = "untitled" ∧
    (("" : String).data.map sanitizeChar).take 100 = [] ∧
    ("untitled" : String) ≠ "" := by
  refine ⟨rfl, rfl, by decide⟩

/-- **C9, amended.**  For every non-empty title, the sanitized form used in
the output filename replaces each character that is not alphanumeric, space,
hyphen or underscore with a hyphen (length preserved before truncation) and
truncates to at most 100 characters, so it uses only allowed characters; the
filename is `timestamp_sanitizedtitle.html`.  An empty title is first
replaced by the fallback `"untitled"`. -/
theorem C9_theorem (title : String) (h : title ≠ "") :
    (safe_title title).data = (title.data.map sanitizeChar).take 100 ∧
    (title.data.map sanitizeChar).length = title.data.length ∧
    (safe_title title).data.length ≤ 100 ∧
    (∀ c ∈ (safe_title title).data, (c.isAlphanum || c = ' ' || c = '-' || c = '_') = true) ∧
    (∀ ts, archiveFilename ts title = ts ++ "_" ++ safe_title title ++ ".html") := by
  refine ⟨by simp [safe_title, h], by simp, ?_, ?_, fun ts => rfl⟩
  · simp only [safe_title, h, if_false]
    exact le_trans (List.length_take_le _ _) (le_refl _)
  · intro c hc
    simp only [safe_title, h, if_false] at hc
    have hc' : c ∈ (title.data.map sanitizeChar) := List.mem_of_mem_take hc
    obtain ⟨c', _, rfl⟩ := List.mem_map.mp hc'
    by_cases hall : (c'.isAlphanum || c' = ' ' || c' = '-' || c' = '_') = true
    · simp [sanitizeChar, hall]
    · simp only [sanitizeChar, if_neg hall]
      decide

/-- **C9, witness.**  The amended theorem applied to the specification's own
example title `"Q&A: 100% Done!"`, which sanitizes to `"Q-A- 100- Done-"`. -/
theorem C9_witness :
    ("Q&A: 100% Done!" : String) ≠ "" ∧
    (safe_title "Q&A: 100% Done!").data =
      (("Q&A: 100% Done!" : String).data.map sanitizeChar).take 100 ∧
    safe_title "Q&A: 100% Done!" = "Q-A- 100- Done-" := by
  refine ⟨by decide, (C9_theorem exampleTitle (by decide)).1, by decide⟩

/-- **C4, counterexample.**  The claim says decoding fails unless the first 8
bytes equal the 8-byte magic `b'mozLz40\x00'`, and in particular fails when
only the first 7 bytes match.  The code checks `magic.startswith(b'mozLz40')`
— 7 bytes — so the input whose 8th byte is `88` passes the check and (with
succeeding decompress/parse collaborators) decodes successfully. -/
theorem C4_counterexample :
    read_bookmark_backup_lz4 idDecompress (constParse emptyNode) badEighthByteData =
      .ok emptyNode ∧
    badEighthByteData.take 8 ≠ mozLz4Magic8 := by
  constructor
  · rfl
  · decide

/-- **C4, amended.**  Decoding a compressed backup fails with the format
error unless the file's first bytes start with the 7-byte ASCII prefix
`b'mozLz40'`; the 8th byte of the documented magic is not validated. -/
theorem C4_theorem (decompress : List Nat → Except String (List Nat))
    (parseJson : List Nat → Except String Node) (data : List Nat)
    (h : mozLz4Magic7.isPrefixOf (data.take 8) = false) :
    read_bookmark_backup_lz4 decompress parseJson data =
      .error (.formatError "Failed to read bookmark backup: Invalid jsonlz4 file format") := by
  simp [read_bookmark_backup_lz4, h]

/-- **C4, witness.**  The amended theorem applied to the one-byte file `[0]`,
whose head does not carry the magic prefix. -/
theorem C4_witness :
    mozLz4Magic7.isPrefixOf (([0] : List Nat).take 8) = false ∧
    read_bookmark_backup_lz4 idDecompress (constParse emptyNode) [0] =
      .error (.formatError "Failed to read bookmark backup: Invalid jsonlz4 file format") := by
  exact ⟨by decide, C4_theorem idDecompress (constParse emptyNode) [0] (by decide)⟩

/-- `filterMap` of a guarded constructor is `map` after `filter`. -/
theorem filterMap_ite_eq_map_filter {α β : Type} (p : α → Bool) (f : α → β)
    (l : List α) :
    l.filterMap (fun a => if p a then some (f a) else none) = (l.filter p).map f := by
  induction l with
  | nil => rfl
  | cons a l ih =>
    by_cases h : p a <;> simp [List.filterMap_cons, List.filter_cons, h, ih]

/-- `extractChild` in terms of the spec-side child test and record builder. -/
theorem extractChild_eq_spec (item : Node) :
    extractChild item =
      if isUrlChild item then some (recordOfChild item) else none := by
  cases item with
  | mk t ti u ch =>
    cases u with
    | none => simp [extractChild, isUrlChild, Node.uri]
    | some v =>
      by_cases ht : t = some placeType <;>
        simp [extractChild, isUrlChild, recordOfChild, Node.uri, Node.type,
          Node.title, ht]

/-- **C7.**  `extract_urls` returns the empty sequence when the folder is
absent or has no `children` field; otherwise it returns, in child order,
exactly one record per direct child whose type is the URL-entry constant and
which carries a `uri` field (children of nested subfolders are never
included, since only the direct children list is consulted), and a qualifying
child without a `title` field contributes the fixed placeholder title
`"Untitled"`. -/
theorem C7_theorem (t ti u : Option String) (cs : List Node) :
    extract_urls none = [] ∧
    extract_urls (some (.mk t ti u none)) = [] ∧
    extract_urls (some (.mk t ti u (some cs))) = (cs.filter isUrlChild).map recordOfChild ∧
    (∀ item ∈ cs, item.type = some placeType → item.title = none →
      ∀ v, item.uri = some v →
        ({ url := v, title := "Untitled" } : URLRecord) ∈
          extract_urls (some (.mk t ti u (some cs)))) := by
  have hmain : extract_urls (some (.mk t ti u (some cs))) =
      (cs.filter isUrlChild).map recordOfChild := by
    have : extract_urls (some (.mk t ti u (some cs))) = cs.filterMap extractChild := rfl
    rw [this, List.filterMap_congr (fun item _ => extractChild_eq_spec item),
      filterMap_ite_eq_map_filter]
  refine ⟨rfl, rfl, hmain, ?_⟩
  intro item hmem htype htitle v huri
  rw [hmain]
  refine List.mem_map.mpr ⟨item, List.mem_filter.mpr ⟨hmem, ?_⟩, ?_⟩
  · simp [isUrlChild, htype, huri]
  · simp [recordOfChild, htype, htitle, huri]

/-- **C7, witness.**  The theorem applied to the specification's extraction
example: a folder with two URL children and one nested subfolder child yields
exactly the two records, in order, and the title-less first child gets the
placeholder title. -/
theorem C7_witness :
    extract_urls (some (.mk (some containerType) (some "F") none (some
      [ .mk (some placeType) none (some "https://a.example") none,
        .mk (some containerType) (some "Sub") none (some
          [ .mk (some placeType) (some "hidden") (some "https://hidden.example") none ]),
        .mk (some placeType) (some "B") (some "https://b.example") none ]))) =
      [ { url := "https://a.example", title := "Untitled" },
        { url := "https://b.example", title := "B" } ] ∧
    ({ url := "https://a.example", title := "Untitled" } : URLRecord) ∈
      extract_urls (some (.mk (some containerType) (some "F") none (some
        [ .mk (some placeType) none (some "https://a.example") none,
          .mk (some containerType) (some "Sub") none (some
            [ .mk (some placeType) (some "hidden") (some "https://hidden.example") none ]),
          .mk (some placeType) (some "B") (some "https://b.example") none ]))) := by
  constructor
  · rfl
  · exact (C7_theorem (some containerType) (some "F") none _).2.2.2
      (.mk (some placeType) none (some "https://a.example") none)
      (by simp) rfl rfl "https://a.example" rfl

mutual

/-- The recursive search returns exactly the first match of the preorder
(document-order) listing of the tree. -/
theorem find_eq_preorder_find (name : String) (n : Node) :
    find_bookmark_folder name n = (preorder n).find? (isFolderMatch name) := by
  cases n with
  | mk t ti u ch =>
    cases ch with
    | none =>
      by_cases h : t = some containerType ∧ ti = some name
      · simp [find_bookmark_folder, preorder, isFolderMatch, Node.type, Node.title, h]
      · simp [find_bookmark_folder, preorder, isFolderMatch, Node.type, Node.title, h]
    | some cs =>
      by_cases h : t = some containerType ∧ ti = some name
      · simp [find_bookmark_folder, preorder, isFolderMatch, Node.type, Node.title, h]
      · rw [show find_bookmark_folder name (.mk t ti u (some cs)) =
            findInChildren name cs by simp [find_bookmark_folder, h]]
        rw [show preorder (.mk t ti u (some cs)) =
            Node.mk t ti u (some cs) :: preorderList cs from rfl]
        rw [List.find?_cons_of_neg, findInChildren_eq_preorder_find]
        simp [isFolderMatch, Node.type, Node.title, h]

/-- The child loop of the search returns exactly the first match of the
concatenated preorder listings of the sibling subtrees. -/
theorem findInChildren_eq_preorder_find (name : String) (cs : List Node) :
    findInChildren name cs = (preorderList cs).find? (isFolderMatch name) := by
  cases cs with
  | nil => rfl
  | cons c rest =>
    rw [show findInChildren name (c :: rest) =
        (match find_bookmark_folder name c with
         | some found => some found
         | none => findInChildren name rest) from rfl]
    rw [show preorderList (c :: rest) = preorder c ++ preorderList rest from rfl]
    rw [List.find?_append, find_eq_preorder_find name c,
      findInChildren_eq_preorder_find name rest]
    cases (preorder c).find? (isFolderMatch name) <;> simp [Option.or]

end

/-- **C6.**  For every finite bookmark tree and folder name,
`find_bookmark_folder` returns the first node in document order (preorder
depth-first, a node before its children, children in sequence order) whose
`type` is the container constant and whose `title` equals the name exactly
(plain string equality, no normalization), and returns `none` exactly when no
such node exists. -/
theorem C6_theorem (name : String) (root : Node) :
    find_bookmark_folder name root = (preorder root).find? (isFolderMatch name) ∧
    (find_bookmark_folder name root = none ↔
      ∀ m ∈ preorder root, ¬ (m.type = some containerType ∧ m.title = some name)) := by
  refine ⟨find_eq_preorder_find name root, ?_⟩
  rw [find_eq_preorder_find name root, List.find?_eq_none]
  simp [isFolderMatch]

/-- The head of the stable descending sort of a non-empty listing is the
first entry attaining the maximal modification time: it belongs to the
listing, no entry is more recent, and `find?` on the listing at its `mtime`
returns it (so on a tie the earliest listed entry wins). -/
theorem sortByMtimeDesc_head (x : FileEntry) (xs : List FileEntry) :
    ∃ e rest, sortByMtimeDesc (x :: xs) = e :: rest ∧
      e ∈ x :: xs ∧
      (∀ f ∈ x :: xs, f.mtime ≤ e.mtime) ∧
      (x :: xs).find? (fun f => f.mtime == e.mtime) = some e := by
  induction xs generalizing x with
  | nil =>
    refine ⟨x, [], rfl, by simp, by simp, ?_⟩
    rw [List.find?_cons_of_pos]
    simp
  | cons y ys ih =>
    obtain ⟨e, rest, hsort, hmem, hmax, hfind⟩ := ih y
    have hstep : sortByMtimeDesc (x :: y :: ys) = insertByMtimeDesc x (e :: rest) := by
      rw [show sortByMtimeDesc (x :: y :: ys) =
          insertByMtimeDesc x (sortByMtimeDesc (y :: ys)) from rfl, hsort]
    by_cases hx : x.mtime ≥ e.mtime
    · refine ⟨x, e :: rest, ?_, by simp, ?_, ?_⟩
      · rw [hstep, insertByMtimeDesc, if_pos hx]
      · intro f hf
        rcases List.mem_cons.mp hf with rfl | hf'
        · exact le_refl _
        · exact le_trans (hmax f hf') hx
      · rw [List.find?_cons_of_pos]
        simp
    · push_neg at hx
      refine ⟨e, insertByMtimeDesc x rest, ?_, .tail _ hmem, ?_, ?_⟩
      · rw [hstep, insertByMtimeDesc, if_neg (not_le.mpr hx)]
      · intro f hf
        rcases List.mem_cons.mp hf with rfl | hf'
        · exact le_of_lt hx
        · exact hmax f hf'
      · rw [List.find?_cons_of_neg, hfind]
        simp
        exact ne_of_lt hx

/-- **C8.**  The backup selector fails with the not-found errors when the
backup subdirectory is missing or no listed file carries either recognized
extension; otherwise it returns a matching file with the latest modification
time, ties broken deterministically in favour of the earliest listed entry
(the head of a stable descending sort). -/
theorem C8_theorem (entries : List FileEntry) :
    get_latest_bookmark_backup none =
      .error (.notFound "Bookmark backup directory not found") ∧
    (entries.filter isBackupFile = [] →
      get_latest_bookmark_backup (some entries) =
        .error (.notFound "No bookmark backups found")) ∧
    (∀ b bs, entries.filter isBackupFile = b :: bs →
      ∃ e, get_latest_bookmark_backup (some entries) = .ok e ∧
        e ∈ b :: bs ∧
        (∀ f ∈ b :: bs, f.mtime ≤ e.mtime) ∧
        (b :: bs).find? (fun f => f.mtime == e.mtime) = some e) := by
  refine ⟨rfl, ?_, ?_⟩
  · intro h
    simp [get_latest_bookmark_backup, h]
  · intro b bs h
    obtain ⟨e, rest, hsort, hmem, hmax, hfind⟩ := sortByMtimeDesc_head b bs
    refine ⟨e, ?_, hmem, hmax, hfind⟩
    simp only [get_latest_bookmark_backup, h, List.isEmpty_cons, hsort]
    rfl

/-- **C8, witness.**  The theorem applied to a five-entry listing holding a
non-file, a non-backup file and three backup files, two of which tie at the
latest modification time: the selector picks the earliest listed of the two. -/
theorem C8_witness :
    ([ FileEntry.mk "sub" 100 false,
       FileEntry.mk "notes.txt" 99 true,
       FileEntry.mk "bookmarks-1.jsonlz4" 5 true,
       FileEntry.mk "bookmarks-2.json" 7 true,
       FileEntry.mk "bookmarks-3.jsonlz4" 7 true ].filter isBackupFile =
      [ FileEntry.mk "bookmarks-1.jsonlz4" 5 true,
        FileEntry.mk "bookmarks-2.json" 7 true,
        FileEntry.mk "bookmarks-3.jsonlz4" 7 true ]) ∧
    (∃ e, get_latest_bookmark_backup (some
        [ FileEntry.mk "sub" 100 false,
          FileEntry.mk "notes.txt" 99 true,
          FileEntry.mk "bookmarks-1.jsonlz4" 5 true,
          FileEntry.mk "bookmarks-2.json" 7 true,
          FileEntry.mk "bookmarks-3.jsonlz4" 7 true ]) = .ok e ∧
      e ∈ [ FileEntry.mk "bookmarks-1.jsonlz4" 5 true,
            FileEntry.mk "bookmarks-2.json" 7 true,
            FileEntry.mk "bookmarks-3.jsonlz4" 7 true ] ∧
      (∀ f ∈ [ FileEntry.mk "bookmarks-1.jsonlz4" 5 true,
               FileEntry.mk "bookmarks-2.json" 7 true,
               FileEntry.mk "bookmarks-3.jsonlz4" 7 true ], f.mtime ≤ e.mtime) ∧
      [ FileEntry.mk "bookmarks-1.jsonlz4" 5 true,
        FileEntry.mk "bookmarks-2.json" 7 true,
        FileEntry.mk "bookmarks-3.jsonlz4" 7 true ].find?
          (fun f => f.mtime == e.mtime) = some e) ∧
    get_latest_bookmark_backup (some
        [ FileEntry.mk "sub" 100 false,
          FileEntry.mk "notes.txt" 99 true,
          FileEntry.mk "bookmarks-1.jsonlz4" 5 true,
          FileEntry.mk "bookmarks-2.json" 7 true,
          FileEntry.mk "bookmarks-3.jsonlz4" 7 true ]) =
      .ok (FileEntry.mk "bookmarks-2.json" 7 true) := by
  refine ⟨by rfl, ?_, by rfl⟩
  exact (C8_theorem _).2.2
    (FileEntry.mk "bookmarks-1.jsonlz4" 5 true)
    [ FileEntry.mk "bookmarks-2.json" 7 true,
      FileEntry.mk "bookmarks-3.jsonlz4" 7 true ] (by rfl)

/-! ## Archive-loop lemmas -/

/-- The URL of an archiver-invocation event. -/
def invokedUrl : Event → Option String
  | .invoke u _ => some u
  | .mark _ => none

/-- The URL of a `mark_as_processed` event. -/
def markedUrl : Event → Option String
  | .mark u => some u
  | .invoke _ _ => none

/-- The URLs of the records whose archive invocation succeeded, in order. -/
def succUrls (pairs : List (URLRecord × Bool)) : List String :=
  (pairs.filter fun p => p.2).map fun p => p.1.url

theorem archiveLoop_cons_true (r : URLRecord) (rest : List (URLRecord × Bool))
    (s : LedgerState) :
    archiveLoop ((r, true) :: rest) s =
      ((archiveLoop rest (mark_as_processed r.url s)).1,
       1 + (archiveLoop rest (mark_as_processed r.url s)).2.1,
       .invoke r.url true :: .mark r.url ::
         (archiveLoop rest (mark_as_processed r.url s)).2.2) := rfl

theorem archiveLoop_cons_false (r : URLRecord) (rest : List (URLRecord × Bool))
    (s : LedgerState) :
    archiveLoop ((r, false) :: rest) s =
      ((archiveLoop rest s).1, (archiveLoop rest s).2.1,
       .invoke r.url false :: (archiveLoop rest s).2.2) := by
  simp [archiveLoop, archive_url]

/-- The ledger after the loop: both the in-memory set and the log have gained
exactly the URLs of the successful records, in order. -/
theorem archiveLoop_state (pairs : List (URLRecord × Bool)) (s : LedgerState) :
    (archiveLoop pairs s).1 =
      ⟨s.processed ++ succUrls pairs, s.log ++ succUrls pairs⟩ := by
  induction pairs generalizing s with
  | nil => simp [archiveLoop, succUrls]
  | cons p rest ih =>
    obtain ⟨r, ok⟩ := p
    cases ok
    · rw [archiveLoop_cons_false, ih]
      simp [succUrls]
    · rw [archiveLoop_cons_true, ih]
      simp [succUrls, mark_as_processed]

/-- The success counter equals the number of successful records. -/
theorem archiveLoop_count (pairs : List (URLRecord × Bool)) (s : LedgerState) :
    (archiveLoop pairs s).2.1 = (succUrls pairs).length := by
  induction pairs generalizing s with
  | nil => simp [archiveLoop, succUrls]
  | cons p rest ih =>
    obtain ⟨r, ok⟩ := p
    cases ok
    · rw [archiveLoop_cons_false, ih]
      simp [succUrls]
    · rw [archiveLoop_cons_true, ih]
      simp [succUrls]
      omega

/-- Every record of the batch is attempted, in order, whatever the outcomes:
the invocation events of the trace list exactly the records' URLs. -/
theorem archiveLoop_invocations (pairs : List (URLRecord × Bool)) (s : LedgerState) :
    ((archiveLoop pairs s).2.2).filterMap invokedUrl =
      pairs.map fun p => p.1.url := by
  induction pairs generalizing s with
  | nil => simp [archiveLoop]
  | cons p rest ih =>
    obtain ⟨r, ok⟩ := p
    cases ok
    · rw [archiveLoop_cons_false]
      simp [List.filterMap_cons, invokedUrl, ih]
    · rw [archiveLoop_cons_true]
      simp [List.filterMap_cons, invokedUrl, ih]

/-- `mark_as_processed` events of the trace list exactly the successful
records' URLs, in order. -/
theorem archiveLoop_marks (pairs : List (URLRecord × Bool)) (s : LedgerState) :
    ((archiveLoop pairs s).2.2).filterMap markedUrl = succUrls pairs := by
  induction pairs generalizing s with
  | nil => simp [archiveLoop, succUrls]
  | cons p rest ih =>
    obtain ⟨r, ok⟩ := p
    cases ok
    · rw [archiveLoop_cons_false]
      simp [List.filterMap_cons, markedUrl, ih, succUrls]
    · rw [archiveLoop_cons_true]
      simp [List.filterMap_cons, markedUrl, ih, succUrls]

/-- Temporal shape of the trace: a `mark u` event is always immediately
preceded by a successful `invoke u` event — the ledger is never updated
before the invocation nor after a failed one. -/
theorem archiveLoop_mark_after (pairs : List (URLRecord × Bool)) (s : LedgerState)
    (i : Nat) (u : String)
    (h : ((archiveLoop pairs s).2.2)[i]? = some (.mark u)) :
    0 < i ∧ ((archiveLoop pairs s).2.2)[i - 1]? = some (.invoke u true) := by
  induction pairs generalizing s i with
  | nil => simp [archiveLoop] at h
  | cons p rest ih =>
    obtain ⟨r, ok⟩ := p
    cases ok
    · rw [archiveLoop_cons_false] at h ⊢
      cases i with
      | zero => simp at h
      | succ j =>
        rw [List.getElem?_cons_succ] at h
        obtain ⟨hj, hinv⟩ := ih s j h
        refine ⟨Nat.succ_pos _, ?_⟩
        cases j with
        | zero => exact absurd hj (lt_irrefl 0)
        | succ k =>
          rw [Nat.succ_sub_one] at hinv ⊢
          rw [List.getElem?_cons_succ]
          exact hinv
    · rw [archiveLoop_cons_true] at h ⊢
      cases i with
      | zero => simp at h
      | succ j =>
        rw [List.getElem?_cons_succ] at h
        cases j with
        | zero =>
          rw [List.getElem?_cons_zero] at h
          have : r.url = u := by
            have := Option.some.inj h
            cases this
            rfl
          refine ⟨Nat.one_pos, ?_⟩
          rw [Nat.succ_sub_one, List.getElem?_cons_zero, this]
        | succ k =>
          rw [List.getElem?_cons_succ] at h
          obtain ⟨hk, hinv⟩ := ih (mark_as_processed r.url s) k h
          refine ⟨Nat.succ_pos _, ?_⟩
          cases k with
          | zero => exact absurd hk (lt_irrefl 0)
          | succ m =>
            rw [Nat.succ_sub_one] at hinv ⊢
            rw [List.getElem?_cons_succ, List.getElem?_cons_succ]
            exact hinv

/-- **C1.**  For every batch of records paired with their per-record archiver
outcomes and every starting ledger: the ledger (in-memory set and log) is
updated exactly with the successful records' URLs; every record is attempted
even after earlier failures (the invocation events list every record, in
order); a `mark` event only ever follows, immediately, its own successful
invocation — never before it, never on failure; and the final summary reports
the number of successes out of the number of records attempted. -/
theorem C1_theorem (pairs : List (URLRecord × Bool)) (s : LedgerState) :
    (archiveLoop pairs s).1.processed = s.processed ++ succUrls pairs ∧
    (archiveLoop pairs s).1.log = s.log ++ succUrls pairs ∧
    ((archiveLoop pairs s).2.2).filterMap markedUrl = succUrls pairs ∧
    ((archiveLoop pairs s).2.2).filterMap invokedUrl = pairs.map (fun p => p.1.url) ∧
    (archiveLoop pairs s).2.1 = (succUrls pairs).length ∧
    (((archiveLoop pairs s).2.2).filterMap invokedUrl).length = pairs.length ∧
    (∀ i u, ((archiveLoop pairs s).2.2)[i]? = some (.mark u) →
      0 < i ∧ ((archiveLoop pairs s).2.2)[i - 1]? = some (.invoke u true)) := by
  refine ⟨?_, ?_, archiveLoop_marks pairs s, archiveLoop_invocations pairs s,
    archiveLoop_count pairs s, ?_, fun i u h => archiveLoop_mark_after pairs s i u h⟩
  · rw [archiveLoop_state]
  · rw [archiveLoop_state]
  · rw [archiveLoop_invocations]
    simp

/-- **C1, witness.**  The theorem applied to the specification's
failure-isolation example: the archiver fails on the first of two new URLs and
succeeds on the second; the ledger gains only the second URL, the second
record is still attempted, the summary reports 1 of 2, and the one `mark`
event sits immediately after the successful invocation. -/
theorem C1_witness :
    (archiveLoop [(⟨"https://a.example", "A"⟩, false), (⟨"https://b.example", "B"⟩, true)]
        ⟨[], []⟩).1.processed = [] ++ succUrls
          [(⟨"https://a.example", "A"⟩, false), (⟨"https://b.example", "B"⟩, true)] ∧
    succUrls [(⟨"https://a.example", "A"⟩, false), (⟨"https://b.example", "B"⟩, true)] =
      ["https://b.example"] ∧
    (archiveLoop [(⟨"https://a.example", "A"⟩, false), (⟨"https://b.example", "B"⟩, true)]
        ⟨[], []⟩).2.1 = 1 ∧
    ((archiveLoop [(⟨"https://a.example", "A"⟩, false), (⟨"https://b.example", "B"⟩, true)]
        ⟨[], []⟩).2.2)[1]? = some (.invoke "https://b.example" true) ∧
    (0 < 2 ∧ ((archiveLoop [(⟨"https://a.example", "A"⟩, false), (⟨"https://b.example", "B"⟩, true)]
        ⟨[], []⟩).2.2)[2 - 1]? = some (.invoke "https://b.example" true)) := by
  refine ⟨(C1_theorem _ _).1, by rfl, by rfl, by rfl, ?_⟩
  exact (C1_theorem [(⟨"https://a.example", "A"⟩, false), (⟨"https://b.example", "B"⟩, true)]
    ⟨[], []⟩).2.2.2.2.2.2 2 "https://b.example" (by rfl)

/-- Pairing records with their per-invocation outcomes does not change which
URLs are processed, or their order. -/
theorem map_url_pairWithOutcomes (records : List URLRecord) (outcomes : Nat → Bool) :
    (pairWithOutcomes records outcomes).map (fun p => p.1.url) =
      records.map (fun r => r.url) := by
  unfold pairWithOutcomes
  rw [List.map_map]
  rw [show ((fun p : URLRecord × Bool => p.1.url) ∘
      fun p : Nat × URLRecord => (p.2, outcomes p.1)) =
      ((fun r : URLRecord => r.url) ∘ Prod.snd) from rfl]
  rw [← List.map_map, List.enum_map_snd]

/-- Filtering against a set that does not contain `u` keeps every occurrence
of `u`: the dedup filter removes no occurrence of a URL absent from the
ledger. -/
theorem count_newUrls (urls : List URLRecord) (processed : List String)
    (u : String) (h : u ∉ processed) :
    ((newUrls urls processed).map (fun r => r.url)).count u =
      (urls.map (fun r => r.url)).count u := by
  induction urls with
  | nil => rfl
  | cons r rest ih =>
    rw [show newUrls (r :: rest) processed =
      (r :: rest).filter (fun item => ¬ item.url ∈ processed) from rfl,
      List.filter_cons]
    by_cases hr : r.url ∈ processed
    · have hne : (r.url == u) = false := by
        apply beq_eq_false_iff_ne.mpr
        intro he
        exact h (he ▸ hr)
      rw [if_neg (by simp [hr]), List.map_cons, List.count_cons]
      simp only [hne, Bool.false_eq_true, if_false, add_zero]
      rw [show rest.filter (fun item => ¬ item.url ∈ processed) =
        newUrls rest processed from rfl, ih]
    · rw [if_pos (by simp [hr])]
      simp only [List.map_cons, List.count_cons]
      rw [show rest.filter (fun item => ¬ item.url ∈ processed) =
        newUrls rest processed from rfl, ih]

/-- **C10.**  Within a single run, deduplication is computed only once,
against the ledger as loaded at start: for every URL `u` not in the loaded
set, the loop invokes the archiver once per occurrence of `u` among the
extracted records — whatever the outcomes, so in particular a second
occurrence is still attempted after the first one succeeded and entered the
in-memory set. -/
theorem C10_theorem (urls : List URLRecord) (s : LedgerState)
    (outcomes : Nat → Bool) (u : String) (h : u ∉ s.processed) :
    (((archiveLoop (pairWithOutcomes (newUrls urls s.processed) outcomes) s).2.2).filterMap
        invokedUrl).count u =
      (urls.map (fun r => r.url)).count u := by
  rw [archiveLoop_invocations, map_url_pairWithOutcomes,
    count_newUrls urls s.processed u h]

/-- **C10, witness.**  The theorem applied to a folder whose records carry
the same URL twice, an empty ledger, and an all-success archiver: the
archiver is invoked twice for that URL. -/
theorem C10_witness :
    "https://dup.example" ∉ ([] : List String) ∧
    (((archiveLoop (pairWithOutcomes
        (newUrls [⟨"https://dup.example", "first"⟩, ⟨"https://dup.example", "second"⟩] [])
        (fun _ => true)) ⟨[], []⟩).2.2).filterMap invokedUrl).count "https://dup.example" =
      ([⟨"https://dup.example", "first"⟩, ⟨"https://dup.example", "second"⟩].map
        (fun r : URLRecord => r.url)).count "https://dup.example" ∧
    ([⟨"https://dup.example", "first"⟩, ⟨"https://dup.example", "second"⟩].map
        (fun r : URLRecord => r.url)).count "https://dup.example" = 2 := by
  refine ⟨by decide, ?_, by rfl⟩
  exact C10_theorem [⟨"https://dup.example", "first"⟩, ⟨"https://dup.example", "second"⟩]
    ⟨[], []⟩ (fun _ => true) "https://dup.example" (by decide)

/-- **C5, counterexample.**  The claim says every fatal error produces a
non-zero process outcome.  With a missing profile, `run` catches the error,
prints it and returns; `main` then finishes normally and the process exits 0. -/
theorem C5_counterexample :
    (run envProfileMissing).1 = .errProfile ∧
    mainExitCode true envProfileMissing = 0 := by
  exact ⟨rfl, rfl⟩

/-- **C5, amended.**  Every fatal error (profile not found, backup not found,
decode failure) aborts the run before any archive attempt is made (the
invocation trace is empty), but the process outcome is successful (exit 0),
because `run` catches and reports these errors internally; only a missing
config file produces a non-zero exit.  Per-URL archiver failures likewise
leave the overall process outcome successful. -/
theorem C5_theorem (env : Env) :
    mainExitCode true env = 0 ∧
    mainExitCode false env ≠ 0 ∧
    (∀ e, env.profileRes = .error e →
      (run env).1 = .errProfile ∧ (run env).2.2 = []) ∧
    (∀ e, env.profileRes = .ok () → env.backupRes = .error e →
      (run env).1 = .errBackup ∧ (run env).2.2 = []) ∧
    (∀ e f, env.profileRes = .ok () → env.backupRes = .ok f →
      env.bookmarksRes = .error e →
      (run env).1 = .errDecode ∧ (run env).2.2 = []) := by
  refine ⟨rfl, by simp [mainExitCode], ?_, ?_, ?_⟩
  · intro e he
    constructor <;> simp [run, he]
  · intro e hp hb
    constructor <;> simp [run, hp, hb]
  · intro e f hp hb hd
    constructor <;> simp [run, hp, hb, hd]

/-- **C5, witness.**  The amended theorem applied to the missing-profile
environment. -/
theorem C5_witness :
    envProfileMissing.profileRes = .error (.notFound "Firefox directory not found") ∧
    (run envProfileMissing).1 = .errProfile ∧ (run envProfileMissing).2.2 = [] := by
  exact ⟨rfl, (C5_theorem envProfileMissing).2.2.1
    (.notFound "Firefox directory not found") rfl⟩

/-! ## Line-splitting lemmas (for the reload-after-append argument) -/

theorem splitNl_ne_nil (cs : List Char) : splitNl cs ≠ [] := by
  cases cs with
  | nil => simp [splitNl]
  | cons c cs' =>
    by_cases h : c = '\n'
    · simp [splitNl, h]
    · simp only [splitNl, h, if_false]
      cases hs : splitNl cs' <;> simp

theorem splitNl_cons_nl (cs : List Char) : splitNl ('\n' :: cs) = [] :: splitNl cs := by
  simp [splitNl]

theorem splitNl_cons_other (c : Char) (cs : List Char) (h : c ≠ '\n')
    (l : List Char) (ls : List (List Char)) (hs : splitNl cs = l :: ls) :
    splitNl (c :: cs) = (c :: l) :: ls := by
  simp [splitNl, h, hs]

/-- Splitting a newline-free chunk, a newline, then a remainder: the chunk is
the first piece. -/
theorem splitNl_chunk (a b : List Char) (h : '\n' ∉ a) :
    splitNl (a ++ '\n' :: b) = a :: splitNl b := by
  induction a with
  | nil => simpa using splitNl_cons_nl b
  | cons c a' ih =>
    have hc : c ≠ '\n' := fun e => h (e ▸ List.mem_cons_self c a')
    have h' : '\n' ∉ a' := fun e => h (List.mem_cons_of_mem c e)
    obtain ⟨l, ls, hls⟩ : ∃ l ls, splitNl (a' ++ '\n' :: b) = l :: ls := by
      cases hq : splitNl (a' ++ '\n' :: b) with
      | nil => exact absurd hq (splitNl_ne_nil _)
      | cons x xs => exact ⟨x, xs, rfl⟩
    rw [List.cons_append, splitNl_cons_other c _ hc l ls hls]
    rw [ih h'] at hls
    obtain ⟨rfl, rfl⟩ : a' = l ∧ splitNl b = ls := ⟨(List.cons.inj hls).1, (List.cons.inj hls).2⟩
    rfl

/-- Splitting a block of newline-terminated newline-free lines followed by a
remainder yields the lines and then the split remainder. -/
theorem splitNl_block (us : List (List Char)) (r : List Char)
    (h : ∀ u ∈ us, '\n' ∉ u) :
    splitNl ((us.map (fun u => u ++ ['\n'])).flatten ++ r) = us ++ splitNl r := by
  induction us with
  | nil => simp
  | cons u us' ih =>
    have hu : '\n' ∉ u := h u (List.mem_cons_self u us')
    have h' : ∀ v ∈ us', '\n' ∉ v := fun v hv => h v (List.mem_cons_of_mem u hv)
    rw [List.map_cons, List.flatten_cons, List.append_assoc,
      show u ++ ['\n'] ++ ((us'.map (fun v => v ++ ['\n'])).flatten ++ r) =
        u ++ '\n' :: ((us'.map (fun v => v ++ ['\n'])).flatten ++ r) by simp,
      splitNl_chunk _ _ hu, ih h']
    rfl

/-- A newline-terminated text splits into at least two pieces. -/
theorem splitNl_length_ge_two (x : List Char) (h : x.getLast? = some '\n') :
    2 ≤ (splitNl x).length := by
  induction x with
  | nil => simp at h
  | cons c x' ih =>
    cases x' with
    | nil =>
      have hc : c = '\n' := by simpa using h
      rw [hc, splitNl_cons_nl]
      simp [splitNl]
    | cons d x'' =>
      rw [List.getLast?_cons_cons] at h
      have h2 := ih h
      by_cases hc : c = '\n'
      · rw [hc, splitNl_cons_nl]
        have h1 : 0 < (splitNl (d :: x'')).length :=
          List.length_pos.mpr (splitNl_ne_nil _)
        simp only [List.length_cons]
        omega
      · obtain ⟨l, ls, hls⟩ : ∃ l ls, splitNl (d :: x'') = l :: ls := by
          cases hq : splitNl (d :: x'') with
          | nil => exact absurd hq (splitNl_ne_nil _)
          | cons a b => exact ⟨a, b, rfl⟩
        rw [splitNl_cons_other c _ hc l ls hls]
        rw [hls] at h2
        simpa using h2

theorem getLast?_cons_ne_nil {α : Type} (a : α) (l : List α) (h : l ≠ []) :
    (a :: l).getLast? = l.getLast? := by
  cases l with
  | nil => exact absurd rfl h
  | cons b t => exact List.getLast?_cons_cons

/-- The final piece of a newline-terminated text is empty. -/
theorem splitNl_getLast_empty (x : List Char) (h : x.getLast? = some '\n') :
    (splitNl x).getLast? = some [] := by
  induction x with
  | nil => simp at h
  | cons c x' ih =>
    cases x' with
    | nil =>
      have hc : c = '\n' := by simpa using h
      rw [hc, splitNl_cons_nl]
      rfl
    | cons d x'' =>
      rw [List.getLast?_cons_cons] at h
      have hrec := ih h
      have hne : splitNl (d :: x'') ≠ [] := splitNl_ne_nil _
      by_cases hc : c = '\n'
      · rw [hc, splitNl_cons_nl]
        rw [getLast?_cons_ne_nil _ _ hne]
        exact hrec
      · obtain ⟨l, ls, hls⟩ : ∃ l ls, splitNl (d :: x'') = l :: ls := by
          cases hq : splitNl (d :: x'') with
          | nil => exact absurd hq (splitNl_ne_nil _)
          | cons a b => exact ⟨a, b, rfl⟩
        have h2 := splitNl_length_ge_two (d :: x'') h
        rw [hls] at h2
        have hlsne : ls ≠ [] := by
          intro e
          rw [e] at h2
          simp at h2
        rw [splitNl_cons_other c _ hc l ls hls]
        rw [getLast?_cons_ne_nil _ _ hlsne]
        rw [hls, getLast?_cons_ne_nil _ _ hlsne] at hrec
        exact hrec

/-- No piece of the split contains a newline. -/
theorem splitNl_no_nl (x : List Char) : ∀ p ∈ splitNl x, '\n' ∉ p := by
  induction x with
  | nil =>
    intro p hp
    simp [splitNl] at hp
    simp [hp]
  | cons c x' ih =>
    by_cases hc : c = '\n'
    · rw [hc, splitNl_cons_nl]
      intro p hp
      rcases List.mem_cons.mp hp with rfl | hp'
      · simp
      · exact ih p hp'
    · obtain ⟨l, ls, hls⟩ : ∃ l ls, splitNl x' = l :: ls := by
        cases hq : splitNl x' with
        | nil => exact absurd hq (splitNl_ne_nil _)
        | cons a b => exact ⟨a, b, rfl⟩
      rw [splitNl_cons_other c _ hc l ls hls]
      intro p hp
      rcases List.mem_cons.mp hp with rfl | hp'
      · intro hmem
        rcases List.mem_cons.mp hmem with he | hl
        · exact hc he.symm
        · exact ih l (hls ▸ List.mem_cons_self l ls) hl
      · exact ih p (hls ▸ List.mem_cons_of_mem l hp')

/-- A newline-terminated (or empty) text is rebuilt from its non-final pieces,
each re-terminated with a newline. -/
theorem splitNl_reconstruct (x : List Char)
    (h : x = [] ∨ x.getLast? = some '\n') :
    (((splitNl x).dropLast.map (fun p => p ++ ['\n'])).flatten) = x := by
  induction x with
  | nil => rfl
  | cons c x' ih =>
    rcases h with h | h
    · exact absurd h (List.cons_ne_nil c x')
    · cases x' with
      | nil =>
        have hc : c = '\n' := by simpa using h
        rw [hc]
        rfl
      | cons d x'' =>
        rw [List.getLast?_cons_cons] at h
        have hrec := ih (Or.inr h)
        have hne : splitNl (d :: x'') ≠ [] := splitNl_ne_nil _
        by_cases hc : c = '\n'
        · rw [hc, splitNl_cons_nl, List.dropLast_cons_of_ne_nil hne]
          simp only [List.map_cons, List.flatten_cons]
          rw [hrec]
          rfl
        · obtain ⟨l, ls, hls⟩ : ∃ l ls, splitNl (d :: x'') = l :: ls := by
            cases hq : splitNl (d :: x'') with
            | nil => exact absurd hq (splitNl_ne_nil _)
            | cons a b => exact ⟨a, b, rfl⟩
          have h2 := splitNl_length_ge_two (d :: x'') h
          rw [hls] at h2
          have hlsne : ls ≠ [] := by
            intro e
            rw [e] at h2
            simp at h2
          rw [splitNl_cons_other c _ hc l ls hls,
            List.dropLast_cons_of_ne_nil hlsne]
          simp only [List.map_cons, List.flatten_cons]
          rw [hls, List.dropLast_cons_of_ne_nil hlsne] at hrec
          simp only [List.map_cons, List.flatten_cons] at hrec
          rw [List.cons_append, List.cons_append, hrec]

/-- Membership in a loaded ledger, in terms of the split pieces of the log
content. -/
theorem mem_load_iff (s : String) (y : String) :
    y ∈ load_processed_urls (some s) ↔
      (∃ p ∈ splitNl s.data, (⟨pyStrip p⟩ : String) = y) ∧ y ≠ "" := by
  simp only [load_processed_urls, pyLines, pyStripStr, List.mem_filter,
    List.map_map, List.mem_map, Function.comp, decide_not,
    Bool.not_eq_eq_eq_not, Bool.not_true, decide_eq_false_iff_not]

/-- Reloading after appending: every URL of the previously loaded set, and
every appended URL that strips to itself (non-blank, newline-free), is in the
set loaded from the extended log content, provided the previous content was
empty or newline-terminated. -/
theorem load_append_superset (c : String) (us : List String)
    (hc : c.data = [] ∨ c.data.getLast? = some '\n')
    (hus : ∀ u ∈ us, u.data ≠ [] ∧ pyStrip u.data = u.data ∧ '\n' ∉ u.data)
    (x : String) (hx : x ∈ load_processed_urls (some c) ∨ x ∈ us) :
    x ∈ load_processed_urls (some ⟨c.data ++ appendedLog us⟩) := by
  have hvs : ∀ p ∈ (splitNl c.data).dropLast ++ us.map String.data, '\n' ∉ p := by
    intro p hp
    rcases List.mem_append.mp hp with hp | hp
    · exact splitNl_no_nl c.data p (List.mem_of_mem_dropLast hp)
    · obtain ⟨u, hu, rfl⟩ := List.mem_map.mp hp
      exact (hus u hu).2.2
  have happ : appendedLog us =
      (((us.map String.data).map (fun p => p ++ ['\n'])).flatten) := by
    unfold appendedLog
    rw [List.map_map]
    rfl
  have hrw : c.data ++ appendedLog us =
      ((((splitNl c.data).dropLast ++ us.map String.data).map
        (fun p => p ++ ['\n'])).flatten) ++ ([] : List Char) := by
    rw [List.append_nil, List.map_append, List.flatten_append, happ]
    congr 1
    exact (splitNl_reconstruct c.data hc).symm
  have hsplit : splitNl (c.data ++ appendedLog us) =
      ((splitNl c.data).dropLast ++ us.map String.data) ++ [[]] := by
    rw [hrw, splitNl_block _ _ hvs]
    rfl
  rw [mem_load_iff]
  have hdata : (⟨c.data ++ appendedLog us⟩ : String).data = c.data ++ appendedLog us := rfl
  rcases hx with hx | hx
  · obtain ⟨⟨p, hp, hps⟩, hne⟩ := (mem_load_iff c x).mp hx
    have hpd : p ∈ (splitNl c.data).dropLast := by
      rcases hc with hc | hc
      · rw [hc] at hp
        simp [splitNl] at hp
        rw [hp] at hps
        have hxe : x = "" := by
          rw [← hps]
          rfl
        exact absurd hxe hne
      · have hne2 : splitNl c.data ≠ [] := splitNl_ne_nil _
        have hlast : (splitNl c.data).getLast hne2 = [] := by
          have h1 := splitNl_getLast_empty c.data hc
          have h2 := List.getLast?_eq_getLast (splitNl c.data) hne2
          rw [h1] at h2
          exact (Option.some.inj h2).symm
        have hdec := List.dropLast_append_getLast hne2
        rw [← hdec] at hp
        rcases List.mem_append.mp hp with hp | hp
        · exact hp
        · rw [hlast] at hp
          simp at hp
          rw [hp] at hps
          have hxe : x = "" := by
            rw [← hps]
            rfl
          exact absurd hxe hne
    refine ⟨⟨p, ?_, hps⟩, hne⟩
    rw [hdata, hsplit]
    exact List.mem_append_left _ (List.mem_append_left _ hpd)
  · obtain ⟨hd, hstrip, _⟩ := hus x hx
    have hne : x ≠ "" := by
      intro e
      rw [e] at hd
      exact hd rfl
    refine ⟨⟨x.data, ?_, ?_⟩, hne⟩
    · rw [hdata, hsplit]
      exact List.mem_append_left _
        (List.mem_append_right _ (List.mem_map.mpr ⟨x, hx, rfl⟩))
    · rw [hstrip]

/-- With an archiver that succeeds on every invocation, the loop records
exactly the batch's URLs, in order. -/
theorem succUrls_all_true (records : List URLRecord) (o : Nat → Bool)
    (ho : ∀ i, o i = true) :
    succUrls (pairWithOutcomes records o) = records.map (fun r => r.url) := by
  have hfilter : (pairWithOutcomes records o).filter (fun p => p.2) =
      pairWithOutcomes records o := by
    apply List.filter_eq_self.mpr
    intro p hp
    obtain ⟨q, _, rfl⟩ := List.mem_map.mp hp
    simpa using ho q.1
  rw [succUrls, hfilter, map_url_pairWithOutcomes]

/-- Loading from the raw optional content equals loading from its
`getD ""` form. -/
theorem load_getD (content : Option String) :
    load_processed_urls content = load_processed_urls (some (content.getD "")) := by
  cases content with
  | none => rfl
  | some s => rfl

/-- **C2, amended.**  Running the dispatcher twice against the same unchanged
bookmark tree and stage results, with an archiver that succeeds on every URL,
archives zero URLs on the second run — provided every extracted URL is
non-empty, newline-free, and invariant under whitespace-stripping, and the
initial log content is absent, empty, or newline-terminated.  (Without the
proviso the reload applies `str.strip` per line and a pathological URL is
re-archived; see the counterexample.)  The second run performs no archiver
invocation and never reaches the completed-summary outcome. -/
theorem C2_theorem (env : Env)
    (hout : ∀ i, env.outcomes i = true)
    (hwf : (env.logContent.getD "").data = [] ∨
      (env.logContent.getD "").data.getLast? = some '\n')
    (hgood : ∀ tree, env.bookmarksRes = .ok tree →
      ∀ r ∈ extract_urls (find_bookmark_folder env.folderName tree),
        r.url.data ≠ [] ∧ pyStrip r.url.data = r.url.data ∧ '\n' ∉ r.url.data) :
    (run (secondRunEnv env)).2.2 = [] ∧
    (∀ k m, (run (secondRunEnv env)).1 ≠ .completed k m) := by
  have hp2 : (secondRunEnv env).profileRes = env.profileRes := rfl
  have hb2 : (secondRunEnv env).backupRes = env.backupRes := rfl
  have hd2 : (secondRunEnv env).bookmarksRes = env.bookmarksRes := rfl
  have hf2 : (secondRunEnv env).folderName = env.folderName := rfl
  have hl2 : (secondRunEnv env).logContent = fileAfterRun env := rfl
  cases hp : env.profileRes with
  | error e =>
    constructor
    · simp [run, hp2, hp]
    · intro k m
      simp [run, hp2, hp]
  | ok u =>
    cases u
    cases hb : env.backupRes with
    | error e =>
      constructor
      · simp [run, hp2, hp, hb2, hb]
      · intro k m
        simp [run, hp2, hp, hb2, hb]
    | ok f =>
      cases hd : env.bookmarksRes with
      | error e =>
        constructor
        · simp [run, hp2, hp, hb2, hb, hd2, hd]
        · intro k m
          simp [run, hp2, hp, hb2, hb, hd2, hd]
      | ok tree =>
        cases hfold : find_bookmark_folder env.folderName tree with
        | none =>
          constructor
          · simp [run, hp2, hp, hb2, hb, hd2, hd, hf2, hfold]
          · intro k m
            simp [run, hp2, hp, hb2, hb, hd2, hd, hf2, hfold]
        | some folder =>
          have hgood' := fun r hr => hgood tree hd r (by rwa [hfold])
          have key : ∀ r ∈ extract_urls (some folder),
              r.url ∈ load_processed_urls (fileAfterRun env) := by
            have hfile : fileAfterRun env =
                some ⟨(env.logContent.getD "").data ++
                  appendedLog (run env).2.1.log⟩ := rfl
            by_cases hnew : (newUrls (extract_urls (some folder))
                (load_processed_urls env.logContent)).isEmpty
            · have happ : (run env).2.1.log = [] := by
                simp only [run, hp, hb, hd, hfold]
                simp [hnew]
              rw [hfile, happ]
              intro r hr
              apply load_append_superset _ [] hwf (by simp) r.url
              left
              rw [← load_getD]
              have hn : newUrls (extract_urls (some folder))
                  (load_processed_urls env.logContent) = [] :=
                List.isEmpty_iff.mp hnew
              have := List.filter_eq_nil_iff.mp hn r hr
              simpa using this
            · have happ : (run env).2.1.log =
                  (newUrls (extract_urls (some folder))
                    (load_processed_urls env.logContent)).map (fun r => r.url) := by
                simp only [run, hp, hb, hd, hfold]
                simp only [hnew, if_false, Bool.false_eq_true]
                rw [archiveLoop_state]
                rw [succUrls_all_true _ _ hout]
                rfl
              rw [hfile, happ]
              intro r hr
              apply load_append_superset _ _ hwf ?hus r.url ?hx
              case hus =>
                intro v hv
                obtain ⟨r', hr', rfl⟩ := List.mem_map.mp hv
                exact hgood' r' (List.mem_of_mem_filter hr')
              case hx =>
                by_cases hrl : r.url ∈ load_processed_urls env.logContent
                · left
                  rw [← load_getD]
                  exact hrl
                · right
                  exact List.mem_map.mpr
                    ⟨r, List.mem_filter.mpr ⟨hr, by simpa using hrl⟩, rfl⟩
          have hnew2 : (newUrls (extract_urls (some folder))
              (load_processed_urls (fileAfterRun env))).isEmpty = true := by
            rw [List.isEmpty_iff]
            apply List.filter_eq_nil_iff.mpr
            intro r hr
            simpa using key r hr
          constructor
          · simp [run, hp2, hp, hb2, hb, hd2, hd, hf2, hfold, hl2, hnew2]
          · intro k m
            simp [run, hp2, hp, hb2, hb, hd2, hd, hf2, hfold, hl2, hnew2]

/-- **C2, counterexample.**  The claim quantifies over every unchanged tree
and ledger.  For a bookmark whose URL carries leading and trailing spaces,
the first run appends the URL verbatim, but the reload strips each line, so
the stored form never matches the extracted form: the second run re-archives
the same URL (summary `completed 1 1`, one invocation) instead of archiving
zero URLs. -/
theorem C2_counterexample :
    (∀ i, envSpaceyUrl.outcomes i = true) ∧
    (run envSpaceyUrl).1 = .completed 1 1 ∧
    (run (secondRunEnv envSpaceyUrl)).1 = .completed 1 1 ∧
    (run (secondRunEnv envSpaceyUrl)).2.2 =
      [.invoke " https://a.example " true, .mark " https://a.example "] := by
  exact ⟨fun i => rfl, rfl, rfl, rfl⟩

/-- **C2, witness.**  The amended theorem applied to the one-clean-URL
environment: the first run archives it (`completed 1 1`), the second run
performs no invocation and reports no summary. -/
theorem C2_witness :
    (run (secondRunEnv envCleanUrl)).2.2 = [] ∧
    (∀ k m, (run (secondRunEnv envCleanUrl)).1 ≠ .completed k m) ∧
    (run envCleanUrl).1 = .completed 1 1 := by
  have hgoodc : ∀ tree, envCleanUrl.bookmarksRes = .ok tree →
      ∀ r ∈ extract_urls (find_bookmark_folder envCleanUrl.folderName tree),
        r.url.data ≠ [] ∧ pyStrip r.url.data = r.url.data ∧ '\n' ∉ r.url.data := by
    intro tree htree
    cases htree
    decide
  have h := C2_theorem envCleanUrl (fun _ => rfl) (Or.inl rfl) hgoodc
  exact ⟨h.1, h.2, rfl⟩

end BookmarkArchiver
